import Mathlib

/-!
Verification development for the sports-betting-line-calc repository: a
leakage-safe walk-forward backtesting pipeline for NBA team-total
over/under predictions, together with its dashboard frontend.

The repository ships the dashboard frontend (React/TypeScript) and the
documentation of the backend ML pipeline; the backend pipeline itself
(fold scheduler, rolling feature engine, threshold policy computation)
is described by spec.md and the two README files under backend/ml.
Definitions for those components are modelled from the spec, as marked
in their doc comments.  Frontend computations (probBins, classifyPair,
the hit-rate rendering and the FutureGames component) are embedded
directly from the TypeScript source; TypeScript numbers are modelled as
rationals.

The file lists all definitions first, then the lemmas and theorems.
-/

/-! ## Definitions: Fold Scheduler (walk-forward expanding window)

Modelled from the spec: the backend fold scheduler (spec.md section 4.2)
is not part of the shipped sources; only its contract is documented.
Rows are identified with their 0-based position in the date-ordered
Event Table of N rows.  Fold k trains on the first M + k*C rows and
tests on the next C rows. -/

/-- Modelled from the spec: number of folds produced for a table of `N`
rows with minimum train size `M` and test chunk size `C`.  The sequence
terminates when fewer than `C` rows remain, so the count is
`floor ((N - M) / C)` (natural subtraction makes this 0 when `N < M`). -/
def numFolds (N M C : ℕ) : ℕ := (N - M) / C

/-- Modelled from the spec: fold `k` trains on the first `M + k * C`
rows (fold 0 trains on the first `M`; each later fold absorbs the
previous test chunk). -/
def foldTrain (M C k : ℕ) : Finset ℕ := Finset.range (M + k * C)

/-- Modelled from the spec: fold `k` tests on the `C` rows following its
train set. -/
def foldTest (M C k : ℕ) : Finset ℕ := Finset.Ico (M + k * C) (M + (k + 1) * C)

/-- Modelled from the spec: the finite sequence of folds produced by the
Fold Scheduler. -/
def folds (N M C : ℕ) : List (Finset ℕ × Finset ℕ) :=
  (List.range (numFolds N M C)).map (fun k => (foldTrain M C k, foldTest M C k))

/-- Modelled from the spec: the union of the test sets of all folds. -/
def testUnion (N M C : ℕ) : Finset ℕ :=
  (Finset.range (numFolds N M C)).biUnion (fun k => foldTest M C k)

/-- Modelled from the spec (section 7 error taxonomy). -/
inductive MLError where
  | schemaError
  | insufficientData
  | degenerateFold
deriving DecidableEq

/-- Modelled from the spec: running the scheduler surfaces an
`InsufficientDataError` when the table yields zero folds, rather than
silently producing an empty result. -/
def runFolds (N M C : ℕ) : Except MLError (List (Finset ℕ × Finset ℕ)) :=
  if numFolds N M C = 0 then Except.error MLError.insufficientData
  else Except.ok (folds N M C)

/-- Modelled from the spec: one configuration of an ablation sweep
(feature-set id plus the data sizes relevant to the scheduler). -/
structure SweepConfig where
  featureSet : ℕ
  rows : ℕ
  minTrain : ℕ
  chunk : ℕ
deriving DecidableEq

/-- Modelled from the spec: an ablation sweep runs every configuration
independently and records each result, including errors, instead of
aborting the sweep. -/
def ablationSweep (cfgs : List SweepConfig) :
    List (SweepConfig × Except MLError (List (Finset ℕ × Finset ℕ))) :=
  cfgs.map (fun c => (c, runFolds c.rows c.minTrain c.chunk))

/-! ## Definitions: threshold policy

Modelled from the spec: the threshold-policy computation runs in the
backend pipeline, which is not among the shipped sources; spec.md
section 4.6, README_INTERPRETATION.md and the BacktestReview caption all
state the same rule: pick Over if p >= t, Under if p <= 1 - t. -/

/-- Direction of a pick. -/
inductive Side where
  | over
  | under
deriving DecidableEq

/-- Modelled from the spec: the threshold policy decision for one
prediction record with predicted probability `p` at threshold `t`:
Over when `t ≤ p`, otherwise Under when `p ≤ 1 - t`, otherwise no
pick. -/
def thresholdPick (t p : ℚ) : Option Side :=
  if t ≤ p then some Side.over
  else if p ≤ 1 - t then some Side.under
  else none

/-- Modelled from the spec: total number of picks the threshold policy
takes at threshold `t` on a list of predicted probabilities. -/
def pickCount (t : ℚ) (games : List ℚ) : ℕ :=
  (games.filter (fun p => (thresholdPick t p).isSome)).length

/-! ## Definitions: pair classification (frontend/src/PairGraph.tsx) -/

/-- Kind of a co-occurrence pair in the pair graph. -/
inductive PairKind where
  | stack
  | hedge
  | neutral
deriving DecidableEq

/-- Embedded from PairGraph.tsx, function classifyPair: stack when
lift > 1.10 and phi > 0.10, hedge when lift < 0.95 and phi < -0.10,
neutral otherwise. -/
def classifyPair (lift phi : ℚ) : PairKind :=
  if 11 / 10 < lift ∧ 1 / 10 < phi then PairKind.stack
  else if lift < 19 / 20 ∧ phi < -(1 / 10) then PairKind.hedge
  else PairKind.neutral

/-! ## Definitions: probability distribution bins (src/unnamed/part_000) -/

/-- Embedded from the FutureGames component, constant probBins: for each
of the ten bins i = 0..9 the count of games with
p_hat >= i * 0.1 and p_hat < (i + 1) * 0.1. -/
def probBins (games : List ℚ) : List ℕ :=
  (List.range 10).map (fun i =>
    (games.filter (fun p =>
      decide ((i : ℚ) * (1 / 10) ≤ p) && decide (p < ((i : ℚ) + 1) * (1 / 10)))).length)

/-! ## Definitions: hit-rate cells (frontend/src/BacktestReview.tsx)

The policy tables render each hit-rate cell with the JavaScript ternary
`rate ? (rate * 100).toFixed(1) + "%" : "N/A"`; a missing field and the
number 0 are both falsy.  The overall hit-rate cell first falls back
from overall_hit_rate to hit_rate with the or operator.  Number
formatting is abstracted to `toString`, keeping the percent suffix that
distinguishes a rendered rate from the "N/A" placeholder. -/

/-- JavaScript truthiness of an optional numeric field: undefined and 0
are falsy. -/
def truthy (x : Option ℚ) : Bool :=
  match x with
  | none => false
  | some v => !(v == 0)

/-- Percentage string rendered for a hit rate. -/
def pctString (v : ℚ) : String := toString (v * 100) ++ "%"

/-- Embedded from BacktestReview.tsx: one per-direction hit-rate cell,
such as over_hit_rate and under_hit_rate. -/
def renderRate (x : Option ℚ) : String :=
  if truthy x then pctString (x.getD 0) else "N/A"

/-- Embedded from BacktestReview.tsx: the overall hit-rate cell, which
falls back from overall_hit_rate to hit_rate before the truthiness
test. -/
def renderOverall (overall fallback : Option ℚ) : String :=
  if truthy overall then pctString (overall.getD 0) else renderRate fallback

/-! ## Definitions: FutureGames component (src/unnamed/part_000)

The component divides by games.length in two places: the Avg Confidence
summary card, guarded by the ternary
`games.length > 0 ? ... : "N/A"`, and the ten probability-distribution
bar widths, guarded by `games.length > 0 && <section>`.  The embedding
records, per fetched games list, the numerator/denominator pair of
every division the rendered output actually evaluates, mirroring those
two guards. -/

/-- One fetched future game (the fields the divisions consume). -/
structure FutureGame where
  p_hat : ℚ
  confidence : ℚ
deriving DecidableEq

/-- Embedded from the FutureGames component: the Avg Confidence card,
`games.length > 0` guarding the division by games.length. -/
def avgConfidenceCell (games : List FutureGame) : String :=
  if 0 < games.length then
    toString ((games.map (fun g => g.confidence)).sum / games.length * 100) ++ "%"
  else "N/A"

/-- Embedded from the FutureGames component: the bar widths of the
probability-distribution section, rendered only when
`games.length > 0`. -/
def barWidths (games : List FutureGame) : List ℚ :=
  if 0 < games.length then
    (probBins (games.map (fun g => g.p_hat))).map (fun c => (c : ℚ) / games.length * 100)
  else []

/-- The numerator/denominator pairs of the divisions by games.length the
component evaluates, under exactly the guards of the source: the Avg
Confidence division and one division per distribution bar. -/
def renderDivisions (games : List FutureGame) : List (ℚ × ℕ) :=
  (if 0 < games.length then [((games.map (fun g => g.confidence)).sum, games.length)] else [])
    ++ (if 0 < games.length then
          (probBins (games.map (fun g => g.p_hat))).map (fun c => ((c : ℚ), games.length))
        else [])

/-! ## Definitions: Rolling Feature Engine

Modelled from the spec and backend/ml/README.md: rolling features are
computed per team, over the window of the W rows strictly before the
featurized row in the date-ordered stream of that team (shift by one
game), with a missing sentinel when no prior row exists.  The engine
itself is backend code absent from the shipped sources.  Dates are
modelled as naturals; within one team stream dates strictly increase
(one row per team per game, sorted by game date). -/

/-- One Event Table row: game date, team identity, binary label, market
line and the margin base quantity for rolling aggregates. -/
structure Row where
  date : ℕ
  team : ℕ
  label : Bool
  line : ℚ
  margin : ℚ
deriving DecidableEq

/-- Modelled from the spec: the ordered subsequence of table rows
belonging to one team. -/
def teamStream (table : List Row) (t : ℕ) : List Row :=
  table.filter (fun r => r.team == t)

/-- Modelled from the spec: the window of (up to) `W` rows strictly
before position `i` of a team stream, nearest first — the shift-by-one
window. -/
def priorWindow (W : ℕ) (s : List Row) (i : ℕ) : List Row :=
  ((s.take i).reverse).take W

/-- Modelled from the spec: rolling mean of the margin over the prior
window; none is the missing sentinel when no prior row exists. -/
def rollingMeanMargin (W : ℕ) (s : List Row) (i : ℕ) : Option ℚ :=
  let w := priorWindow W s i
  if w.isEmpty then none else some ((w.map Row.margin).sum / w.length)

/-- Modelled from the spec: rolling hit rate of the binary label over
the prior window; none is the missing sentinel. -/
def rollingHitRate (W : ℕ) (s : List Row) (i : ℕ) : Option ℚ :=
  let w := priorWindow W s i
  if w.isEmpty then none else some (((w.filter Row.label).length : ℚ) / w.length)

/-- Modelled from the spec: the rolling features attached to position
`i` of a team stream for window size `W`. -/
def rollingFeatures (W : ℕ) (s : List Row) (i : ℕ) : Option ℚ × Option ℚ :=
  (rollingMeanMargin W s i, rollingHitRate W s i)

/-- Concrete two-row table for the leakage witness: team 0 plays on
dates 1 and 2. -/
def rowA : Row := ⟨1, 0, true, 10, 2⟩

/-- Second row of the witness table. -/
def rowB : Row := ⟨2, 0, false, 11, -1⟩

/-- rowB with label, line and margin mutated (same team, same date). -/
def rowBmut : Row := ⟨2, 0, true, 99, 5⟩

/-- Witness table. -/
def tableC : List Row := [rowA, rowB]

/-- Witness table with the date-2 row mutated. -/
def tableCmut : List Row := [rowA, rowBmut]

/-! ## Theorems: Fold Scheduler -/

lemma foldTrain_succ (M C k : ℕ) :
    foldTrain M C (k + 1) = foldTrain M C k ∪ foldTest M C k := by
  unfold foldTrain foldTest
  rw [Finset.range_eq_Ico]
  have h2 : M + k * C ≤ M + (k + 1) * C := by
    have : k * C ≤ (k + 1) * C := Nat.mul_le_mul_right C (Nat.le_succ k)
    omega
  exact (Finset.Ico_union_Ico_eq_Ico (Nat.zero_le _) h2).symm

lemma biUnion_foldTest (M C : ℕ) :
    ∀ F : ℕ, (Finset.range F).biUnion (fun k => foldTest M C k) =
      Finset.Ico M (M + C * F) := by
  intro F
  induction F with
  | zero => simp
  | succ F ih =>
      rw [Finset.range_succ, Finset.biUnion_insert, ih]
      unfold foldTest
      rw [Finset.union_comm]
      have h1 : M + F * C = M + C * F := by ring
      have h2 : M + (F + 1) * C = M + C * F + C := by ring
      rw [h1, h2]
      rw [Finset.Ico_union_Ico_eq_Ico (Nat.le_add_right _ _) (Nat.le_add_right _ _)]
      congr 1
      ring

/-- Claim C2: for every fold produced by the Fold Scheduler, the train
set and the test set are disjoint, and for every consecutive pair of
folds k and k+1, fold k+1 trains on the union of the train and test
sets of fold k, so the test set of fold k is contained in the train set
of fold k+1. -/
theorem fold_train_test_invariants (N M C k : ℕ) (_hk : k < numFolds N M C) :
    Disjoint (foldTrain M C k) (foldTest M C k) ∧
    (k + 1 < numFolds N M C →
      foldTrain M C (k + 1) = foldTrain M C k ∪ foldTest M C k ∧
      foldTest M C k ⊆ foldTrain M C (k + 1)) := by
  refine ⟨?_, fun _ => ⟨foldTrain_succ M C k, ?_⟩⟩
  · unfold foldTrain foldTest
    rw [Finset.range_eq_Ico]
    exact Finset.Ico_disjoint_Ico_consecutive 0 _ _
  · rw [foldTrain_succ]
    exact Finset.subset_union_right

theorem fold_train_test_invariants_witness :
    0 < numFolds 1300 1000 250 ∧
    (Disjoint (foldTrain 1000 250 0) (foldTest 1000 250 0) ∧
      (0 + 1 < numFolds 1300 1000 250 →
        foldTrain 1000 250 (0 + 1) = foldTrain 1000 250 0 ∪ foldTest 1000 250 0 ∧
        foldTest 1000 250 0 ⊆ foldTrain 1000 250 (0 + 1))) :=
  ⟨by decide, fold_train_test_invariants 1300 1000 250 0 (by decide)⟩

/-- Claim C6: for a table of N rows with minimum train size M and chunk
size C (N at least M + C), the union of all test sets has exactly
C * floor((N - M) / C) rows, and every row past that point appears in no
test set; concretely, N = 1300, M = 1000, C = 250 gives exactly one
fold, whose test set is the 0-based row range [1000, 1250) (rows
1001 to 1250), while rows 1251 to 1300 are uncovered. -/
theorem fold_test_coverage (N M C : ℕ) (_hN : M + C ≤ N) :
    (testUnion N M C).card = C * ((N - M) / C) ∧
    (∀ i : ℕ, M + C * ((N - M) / C) ≤ i → i ∉ testUnion N M C) ∧
    numFolds 1300 1000 250 = 1 ∧
    folds 1300 1000 250 = [(Finset.range 1000, Finset.Ico 1000 1250)] ∧
    (∀ i : ℕ, 1250 ≤ i → i < 1300 → i ∉ testUnion 1300 1000 250) := by
  have key : ∀ n m c : ℕ, testUnion n m c = Finset.Ico m (m + c * numFolds n m c) := by
    intro n m c
    unfold testUnion
    exact biUnion_foldTest m c _
  refine ⟨?_, ?_, by decide, ?_, ?_⟩
  · rw [key, Nat.card_Ico]
    unfold numFolds
    omega
  · intro i hi hmem
    rw [key, Finset.mem_Ico] at hmem
    unfold numFolds at hmem
    omega
  · unfold folds foldTrain foldTest
    rw [show numFolds 1300 1000 250 = 1 from by decide, show List.range 1 = [0] from rfl]
    norm_num
  · intro i h1 _h2 hmem
    rw [key, Finset.mem_Ico] at hmem
    have hF : numFolds 1300 1000 250 = 1 := by decide
    rw [hF] at hmem
    omega

theorem fold_test_coverage_witness :
    1000 + 250 ≤ 1300 ∧
    ((testUnion 1300 1000 250).card = 250 * ((1300 - 1000) / 250) ∧
      (∀ i : ℕ, 1000 + 250 * ((1300 - 1000) / 250) ≤ i → i ∉ testUnion 1300 1000 250) ∧
      numFolds 1300 1000 250 = 1 ∧
      folds 1300 1000 250 = [(Finset.range 1000, Finset.Ico 1000 1250)] ∧
      (∀ i : ℕ, 1250 ≤ i → i < 1300 → i ∉ testUnion 1300 1000 250)) :=
  ⟨by decide, fold_test_coverage 1300 1000 250 (by decide)⟩

/-- Claim C7: when the table has fewer than minTrain + chunk rows the
scheduler yields zero folds and the run fails with an
InsufficientDataError instead of silently returning an empty result; an
ablation sweep records one entry per configuration (the failing one
included) and keeps going over the rest. -/
theorem insufficient_data_error (N M C : ℕ) (h : N < M + C) :
    numFolds N M C = 0 ∧
    runFolds N M C = Except.error MLError.insufficientData ∧
    ∀ cfgs : List SweepConfig,
      (ablationSweep cfgs).length = cfgs.length ∧
      ∀ c ∈ cfgs, (c, runFolds c.rows c.minTrain c.chunk) ∈ ablationSweep cfgs := by
  have h0 : numFolds N M C = 0 := by
    unfold numFolds
    rcases Nat.eq_zero_or_pos C with hC | hC
    · rw [hC, Nat.div_zero]
    · exact Nat.div_eq_of_lt (by omega)
  refine ⟨h0, ?_, ?_⟩
  · unfold runFolds
    simp [h0]
  · intro cfgs
    constructor
    · simp [ablationSweep]
    · intro c hc
      exact List.mem_map_of_mem _ hc

theorem insufficient_data_error_witness :
    500 < 1000 + 250 ∧
    (numFolds 500 1000 250 = 0 ∧
      runFolds 500 1000 250 = Except.error MLError.insufficientData ∧
      ∀ cfgs : List SweepConfig,
        (ablationSweep cfgs).length = cfgs.length ∧
        ∀ c ∈ cfgs, (c, runFolds c.rows c.minTrain c.chunk) ∈ ablationSweep cfgs) :=
  ⟨by decide, insufficient_data_error 500 1000 250 (by decide)⟩

/-! ## Theorems: threshold policy -/

/-- Claim C4: at any configured threshold t (the configured list lies
strictly above 1/2), a record is classified Over exactly when p ≥ t,
Under exactly when p ≤ 1 − t, and no pick is made exactly when p lies
strictly between 1 − t and t. -/
theorem threshold_pick_characterization (t p : ℚ) (ht : 1 / 2 < t) :
    (thresholdPick t p = some Side.over ↔ t ≤ p) ∧
    (thresholdPick t p = some Side.under ↔ p ≤ 1 - t) ∧
    (thresholdPick t p = none ↔ 1 - t < p ∧ p < t) := by
  unfold thresholdPick
  split_ifs with h1 h2
  · refine ⟨⟨fun _ => h1, fun _ => rfl⟩,
      ⟨fun h => absurd h (by simp), fun h2 => ?_⟩,
      ⟨fun h => absurd h (by simp), fun h => absurd h1 (not_le.mpr h.2)⟩⟩
    · exact absurd (le_trans h1 h2) (by linarith)
  · refine ⟨⟨fun h => absurd h (by simp), fun h => absurd h h1⟩,
      ⟨fun _ => h2, fun _ => rfl⟩,
      ⟨fun h => absurd h (by simp), fun h => absurd h2 (not_le.mpr h.1)⟩⟩
  · refine ⟨⟨fun h => absurd h (by simp), fun h => absurd h h1⟩,
      ⟨fun h => absurd h (by simp), fun h => absurd h h2⟩,
      ⟨fun _ => ⟨not_le.mp h2, not_le.mp h1⟩, fun _ => rfl⟩⟩

theorem threshold_pick_characterization_witness :
    (1 / 2 : ℚ) < 11 / 20 ∧
    ((thresholdPick (11 / 20) (3 / 5) = some Side.over ↔ (11 / 20 : ℚ) ≤ 3 / 5) ∧
      (thresholdPick (11 / 20) (3 / 5) = some Side.under ↔ (3 / 5 : ℚ) ≤ 1 - 11 / 20) ∧
      (thresholdPick (11 / 20) (3 / 5) = none ↔
        1 - 11 / 20 < (3 / 5 : ℚ) ∧ (3 / 5 : ℚ) < 11 / 20)) :=
  ⟨by norm_num, threshold_pick_characterization (11 / 20) (3 / 5) (by norm_num)⟩

/-- Claim C5: for thresholds 1/2 ≤ t ≤ t2 ≤ 1, every record picked at
the higher threshold t2 is also picked at the lower threshold t, and the
total pick count at t2 never exceeds the one at t. -/
theorem threshold_picks_antitone (t t2 : ℚ) (_h1 : 1 / 2 ≤ t) (h2 : t ≤ t2) (_h3 : t2 ≤ 1) :
    (∀ p : ℚ, thresholdPick t2 p ≠ none → thresholdPick t p ≠ none) ∧
    (∀ games : List ℚ, pickCount t2 games ≤ pickCount t games) := by
  have hstep : ∀ p : ℚ, thresholdPick t2 p ≠ none → thresholdPick t p ≠ none := by
    intro p hp
    unfold thresholdPick at *
    split_ifs at * with ha hb hc hd
    all_goals simp_all
    all_goals linarith
  refine ⟨hstep, fun games => ?_⟩
  unfold pickCount
  rw [← List.countP_eq_length_filter, ← List.countP_eq_length_filter]
  refine List.countP_mono_left (fun p _ hp => ?_)
  have h1 : thresholdPick t2 p ≠ none := by
    intro hnone
    rw [Option.isSome_iff_exists] at hp
    obtain ⟨x, hx⟩ := hp
    rw [hnone] at hx
    cases hx
  have h2 := hstep p h1
  rw [Option.isSome_iff_exists]
  cases hs : thresholdPick t p with
  | none => exact absurd hs h2
  | some s => exact ⟨s, rfl⟩

theorem threshold_picks_antitone_witness :
    ((1 / 2 : ℚ) ≤ 11 / 20 ∧ (11 / 20 : ℚ) ≤ 7 / 10 ∧ (7 / 10 : ℚ) ≤ 1) ∧
    ((∀ p : ℚ, thresholdPick (7 / 10) p ≠ none → thresholdPick (11 / 20) p ≠ none) ∧
      (∀ games : List ℚ, pickCount (7 / 10) games ≤ pickCount (11 / 20) games)) :=
  ⟨⟨by norm_num, by norm_num, by norm_num⟩,
    threshold_picks_antitone (11 / 20) (7 / 10) (by norm_num) (by norm_num) (by norm_num)⟩

/-! ## Theorems: pair classification -/

/-- Claim C8: classifyPair is total with mutually exclusive, exhaustive
outcomes: stack exactly when lift > 1.10 and phi > 0.10, hedge exactly
when lift < 0.95 and phi < -0.10, neutral in every other case, and no
input meets both the stack and the hedge condition. -/
theorem classifyPair_characterization (lift phi : ℚ) :
    (classifyPair lift phi = PairKind.stack ↔ 11 / 10 < lift ∧ 1 / 10 < phi) ∧
    (classifyPair lift phi = PairKind.hedge ↔ lift < 19 / 20 ∧ phi < -(1 / 10)) ∧
    (classifyPair lift phi = PairKind.neutral ↔
      ¬(11 / 10 < lift ∧ 1 / 10 < phi) ∧ ¬(lift < 19 / 20 ∧ phi < -(1 / 10))) ∧
    ¬((11 / 10 < lift ∧ 1 / 10 < phi) ∧ (lift < 19 / 20 ∧ phi < -(1 / 10))) := by
  have hexcl : ¬((11 / 10 < lift ∧ 1 / 10 < phi) ∧ (lift < 19 / 20 ∧ phi < -(1 / 10))) := by
    rintro ⟨⟨ha, -⟩, ⟨hb, -⟩⟩
    linarith
  unfold classifyPair
  split_ifs with h1 h2
  · exact ⟨⟨fun _ => h1, fun _ => rfl⟩,
      ⟨fun h => absurd h (by decide), fun h => absurd (And.intro h1 h) hexcl⟩,
      ⟨fun h => absurd h (by decide), fun h => absurd h1 h.1⟩, hexcl⟩
  · exact ⟨⟨fun h => absurd h (by decide), fun h => absurd h h1⟩,
      ⟨fun _ => h2, fun _ => rfl⟩,
      ⟨fun h => absurd h (by decide), fun h => absurd h2 h.2⟩, hexcl⟩
  · exact ⟨⟨fun h => absurd h (by decide), fun h => absurd h h1⟩,
      ⟨fun h => absurd h (by decide), fun h => absurd h h2⟩,
      ⟨fun _ => And.intro h1 h2, fun _ => rfl⟩, hexcl⟩

/-! ## Theorems: probability distribution bins -/

/-- Claim C3 (failing input): the code uses a half-open interval for
every bin, including the last one, so a prediction with p_hat exactly
1.0 is counted in no bin and the bin counts sum to 0 while the list
holds 1 prediction — contradicting the documented partition of [0,1]
into bins ending with the closed bin [0.9, 1.0]. -/
theorem probBins_drop_one :
    probBins [(1 : ℚ)] = [0, 0, 0, 0, 0, 0, 0, 0, 0, 0] ∧
    (probBins [(1 : ℚ)]).sum = 0 ∧
    [(1 : ℚ)].length = 1 ∧
    (probBins [(1 : ℚ)]).sum ≠ [(1 : ℚ)].length := by
  have hbins : probBins [(1 : ℚ)] = [0, 0, 0, 0, 0, 0, 0, 0, 0, 0] := by
    unfold probBins
    rw [show List.range 10 = [0, 1, 2, 3, 4, 5, 6, 7, 8, 9] from rfl]
    norm_num [List.filter_cons, List.filter_nil, Bool.and_eq_true, decide_eq_true_eq]
  refine ⟨hbins, by rw [hbins]; rfl, rfl, by rw [hbins]; decide⟩

/-! ## Theorems: hit-rate cells -/

lemma append_pct_ne_na (s : String) : s ++ "%" ≠ "N/A" := by
  intro h
  have hdata : s.data ++ ['%'] = ['N', '/', 'A'] := by
    have h2 := congrArg String.data h
    rw [String.data_append] at h2
    exact h2
  have h1 : (s.data ++ ['%']).getLast? = some '%' := List.getLast?_concat s.data
  rw [hdata] at h1
  exact absurd h1 (by decide)

lemma pctString_ne_na (v : ℚ) : pctString v ≠ "N/A" :=
  append_pct_ne_na (toString (v * 100))

/-- Claim C9: a hit rate of exactly 0 renders as "N/A" in the policy
tables, the same string as a missing value, so a rendered cell shows a
percentage exactly when the underlying rate is present and nonzero. -/
theorem hit_rate_zero_renders_na :
    renderRate (some 0) = "N/A" ∧
    renderRate none = "N/A" ∧
    (∀ v : ℚ, renderRate (some v) = "N/A" ↔ v = 0) ∧
    (∀ v : ℚ, v ≠ 0 → renderRate (some v) = pctString v) ∧
    (∀ fallback : Option ℚ, renderOverall (some 0) fallback = renderOverall none fallback) := by
  have hval : ∀ v : ℚ, renderRate (some v) = if v = 0 then "N/A" else pctString v := by
    intro v
    unfold renderRate truthy
    by_cases hv : v = 0
    · simp [hv]
    · simp [hv, Option.getD]
  refine ⟨by rw [hval]; simp, rfl, ?_, ?_, ?_⟩
  · intro v
    rw [hval]
    by_cases hv : v = 0
    · simp [hv]
    · simp [hv, pctString_ne_na v]
  · intro v hv
    rw [hval]
    simp [hv]
  · intro fallback
    unfold renderOverall truthy
    simp

/-! ## Theorems: FutureGames divisions -/

/-- Claim C10: every division by games.length in the FutureGames
component runs only under a games.length > 0 guard, so no rendering path
divides by zero for any fetched games list, the empty list included. -/
theorem futureGames_no_div_by_zero (games : List FutureGame) (q : ℚ × ℕ)
    (hq : q ∈ renderDivisions games) : 0 < q.2 := by
  unfold renderDivisions at hq
  rw [List.mem_append] at hq
  by_cases hlen : 0 < games.length
  · rcases hq with hq | hq
    · rw [if_pos hlen, List.mem_singleton] at hq
      rw [hq]
      exact hlen
    · rw [if_pos hlen, List.mem_map] at hq
      obtain ⟨c, -, hc⟩ := hq
      rw [← hc]
      exact hlen
  · rcases hq with hq | hq
    · rw [if_neg hlen] at hq
      cases hq
    · rw [if_neg hlen] at hq
      cases hq

theorem futureGames_no_div_by_zero_witness :
    ((1 / 2, 1) : ℚ × ℕ) ∈ renderDivisions [FutureGame.mk (1 / 2) (1 / 2)] ∧
    0 < (((1 / 2, 1) : ℚ × ℕ)).2 :=
  ⟨by
    unfold renderDivisions
    rw [List.mem_append]
    exact Or.inl (by norm_num),
    futureGames_no_div_by_zero [FutureGame.mk (1 / 2) (1 / 2)] ((1 / 2, 1) : ℚ × ℕ)
      (by
        unfold renderDivisions
        rw [List.mem_append]
        exact Or.inl (by norm_num))⟩

/-! ## Theorems: Rolling Feature Engine -/

lemma rollingFeatures_congr_take {W i : ℕ} {s s2 : List Row} (h : s.take i = s2.take i) :
    rollingFeatures W s i = rollingFeatures W s2 i := by
  unfold rollingFeatures rollingMeanMargin rollingHitRate priorWindow
  rw [h]

lemma forall2_teamStream (t : ℕ) {P : Row → Row → Prop}
    (hteam : ∀ r r2, P r r2 → r.team = r2.team) :
    ∀ {l l2 : List Row}, List.Forall₂ P l l2 →
      List.Forall₂ P (teamStream l t) (teamStream l2 t) := by
  intro l l2 h
  induction h with
  | nil => exact List.Forall₂.nil
  | @cons a b l1 l3 hab _h ih =>
      unfold teamStream
      rw [List.filter_cons, List.filter_cons]
      have hteq : (a.team == t) = (b.team == t) := by rw [hteam a b hab]
      rw [hteq]
      by_cases hbt : (b.team == t) = true
      · rw [if_pos hbt, if_pos hbt]
        exact List.Forall₂.cons hab ih
      · rw [if_neg hbt, if_neg hbt]
        exact ih

lemma take_eq_of_forall2 {s s2 : List Row} {i d : ℕ}
    (h : List.Forall₂ (fun r r2 : Row =>
      r.team = r2.team ∧ r.date = r2.date ∧ (r.date < d → r = r2)) s s2)
    (hs : List.Pairwise (fun a b : Row => a.date < b.date) s)
    (hi : i < s.length)
    (hd : (s.get ⟨i, hi⟩).date = d) :
    s.take i = s2.take i := by
  have hlen : s.length = s2.length := h.length_eq
  apply List.ext_getElem
  · simp [hlen]
  · intro n h1 h2
    have hn_i : n < i := by
      simp only [List.length_take, lt_min_iff] at h1
      exact h1.1
    have hns : n < s.length := by omega
    have hns2 : n < s2.length := by omega
    rw [List.getElem_take, List.getElem_take]
    have hrel := h.get hns hns2
    have hlt : (s.get ⟨n, hns⟩).date < (s.get ⟨i, hi⟩).date :=
      List.pairwise_iff_get.mp hs ⟨n, hns⟩ ⟨i, hi⟩ hn_i
    rw [hd] at hlt
    have heq := hrel.2.2 hlt
    simp only [List.get_eq_getElem] at heq
    exact heq

/-- Claim C1: the rolling features of row r depend only on rows of the
stream of the same team with date strictly earlier than date(r): if a
second table keeps the team and date of every row and agrees on every
row whose date precedes date(r) — in particular if it only mutates
labels or lines of rows dated at or after date(r) — then the rolling
features of r are unchanged, for every window size.  Dates strictly
increase along one team stream (one row per team per game,
date-ordered). -/
theorem rolling_leakage_safe (T T2 : List Row) (t W i : ℕ)
    (hi : i < (teamStream T t).length)
    (hsorted : List.Pairwise (fun a b : Row => a.date < b.date) (teamStream T t))
    (hrel : List.Forall₂ (fun r r2 : Row =>
      r.team = r2.team ∧ r.date = r2.date ∧
      (r.date < ((teamStream T t).get ⟨i, hi⟩).date → r = r2)) T T2) :
    rollingFeatures W (teamStream T t) i = rollingFeatures W (teamStream T2 t) i := by
  have h2 := forall2_teamStream t (fun r r2 hp => hp.1) hrel
  exact rollingFeatures_congr_take (take_eq_of_forall2 h2 hsorted hi rfl)

theorem rolling_leakage_safe_witness :
    1 < (teamStream tableC 0).length ∧
    rollingFeatures 5 (teamStream tableC 0) 1 = rollingFeatures 5 (teamStream tableCmut 0) 1 :=
  ⟨by decide,
    rolling_leakage_safe tableC tableCmut 0 5 1 (by decide) (by decide)
      (List.Forall₂.cons ⟨rfl, rfl, fun _ => rfl⟩
        (List.Forall₂.cons ⟨rfl, rfl, fun hlt => absurd hlt (by decide)⟩ List.Forall₂.nil))⟩
